import Mathlib

/-!
# Verification of the astro-client-starter request handlers

Shallow embedding of the first-party logic of the repository:

* the GitHub Git-Data-API commit sequence of `api/generate-commit.ts` and
  `api/publish.ts` (blob → tree → commit → ref update), modelled as a
  state-free sequence over an environment of network responses, recording
  the trace of calls issued;
* the one-time login-token store of the auth-token handler;
* `parseRobotsTxt` / `isBlockedByRobots`;
* `normalizeUrl` / `urlToSlug` over an executable model of the WHATWG
  `URL` constructor restricted to http/https URLs (no percent-encoding,
  no dot-segment normalisation, schemes written in lower case — the
  claims under study only exercise this fragment);
* `extractPageData` over a pre-queried document (the cheerio selector
  engine and the JS regexp engine are abstracted as the fields of a
  `Doc`; the JSON parser behind `JSON.parse` is passed as a parameter).

All definitions are translated from the TypeScript source; JS semantics
(first-occurrence `Set` dedup, `Map` insertion behaviour, single-occurrence
`String.replace` with a string pattern, truthiness) are mirrored where they
matter.  String lengths are code points rather than UTF-16 units; the
claims never distinguish the two.
-/

namespace AstroClient

/-! ## Git Data API commit sequence (`api/generate-commit.ts`, `api/publish.ts`) -/

/-- A file entry of the generate-commit request body (`path`, `content`,
optional `encoding`, defaulting to `utf-8`). -/
structure FileEntry where
  path : String
  content : String
  encoding : Option String
deriving Repr, DecidableEq

/-- A tree entry sent to `POST /git/trees` in the blob-based variant:
`{ path, mode: '100644', type: 'blob', sha }`. -/
structure TreeEntry where
  path : String
  mode : String
  type : String
  sha : String
deriving Repr, DecidableEq

/-- A tree entry of the direct-content variant of `api/publish.ts`:
`{ path, mode: '100644', type: 'blob', content }`. -/
structure ContentTreeEntry where
  path : String
  mode : String
  type : String
  content : String
deriving Repr, DecidableEq

/-- One GitHub network call issued by either commit handler, with the
request data that the claims talk about. -/
inductive GhCall where
  | getRef
  | getCommit (sha : String)
  | createBlob (content : String) (encoding : String)
  | createTree (baseTree : String) (entries : List TreeEntry)
  | createContentTree (baseTree : String) (entries : List ContentTreeEntry)
  | createCommit (message : String) (tree : String) (parents : List String)
  | updateRef (sha : String)
deriving Repr, DecidableEq

/-- The environment of GitHub responses: for each endpoint, `some sha`
models an OK response carrying the relevant SHA, `none` a non-OK
response (which the handlers turn into a thrown error). -/
structure GhEnv where
  refResp : Option String
  commitResp : String → Option String
  blobResp : String → String → Option String
  treeResp : String → List TreeEntry → Option String
  contentTreeResp : String → List ContentTreeEntry → Option String
  createCommitResp : String → List String → Option String
  updateRefResp : String → Bool

/-- The blob-creation loop of `generate-commit.ts` (step 3): one
`POST /git/blobs` per file, throwing on the first non-OK response,
otherwise collecting `{ path, mode: '100644', type: 'blob', sha }`
entries in order. Returns the calls issued and either the entries or
the thrown error message. -/
def createBlobs (env : GhEnv) : List FileEntry → List GhCall × Except String (List TreeEntry)
  | [] => ([], .ok [])
  | f :: fs =>
    let enc := f.encoding.getD "utf-8"
    match env.blobResp f.content enc with
    | none => ([.createBlob f.content enc], .error ("Failed to create blob for " ++ f.path))
    | some sha =>
      let rest := createBlobs env fs
      (.createBlob f.content enc :: rest.1,
        match rest.2 with
        | .error e => .error e
        | .ok entries => .ok (⟨f.path, "100644", "blob", sha⟩ :: entries))

/-- The commit sequence of `api/generate-commit.ts` after input
validation: get HEAD ref → get head commit → create blobs → create
tree (`base_tree` = head commit's tree) → create commit (parent = head
SHA) → PATCH the branch ref.  Returns the ordered trace of GitHub
calls and either the new commit SHA or the error message thrown. -/
def runGenerateCommit (env : GhEnv) (clientName : String) (files : List FileEntry) :
    List GhCall × Except String String :=
  match env.refResp with
  | none => ([.getRef], .error "Failed to get HEAD ref")
  | some headSha =>
    match env.commitResp headSha with
    | none => ([.getRef, .getCommit headSha], .error "Failed to get commit")
    | some baseTreeSha =>
      let blobs := createBlobs env files
      let calls0 := .getRef :: .getCommit headSha :: blobs.1
      match blobs.2 with
      | .error e => (calls0, .error e)
      | .ok treeEntries =>
        match env.treeResp baseTreeSha treeEntries with
        | none => (calls0 ++ [.createTree baseTreeSha treeEntries], .error "Failed to create tree")
        | some newTreeSha =>
          let msg := "Generated site from creative brief\n\n" ++
            toString files.length ++ " files generated for " ++ clientName
          match env.createCommitResp newTreeSha [headSha] with
          | none =>
            (calls0 ++ [.createTree baseTreeSha treeEntries,
              .createCommit msg newTreeSha [headSha]], .error "Failed to create commit")
          | some newCommitSha =>
            let calls1 := calls0 ++ [.createTree baseTreeSha treeEntries,
              .createCommit msg newTreeSha [headSha], .updateRef newCommitSha]
            if env.updateRefResp newCommitSha then
              (calls1, .ok newCommitSha)
            else
              (calls1, .error "Failed to update ref")

/-- An edit entry of the publish request body (the fields the commit
sequence uses). -/
structure EditEntry where
  filePath : String
  modifiedCode : String
deriving Repr, DecidableEq

/-- The commit sequence of `api/publish.ts` after input validation:
get HEAD ref → get head commit → create tree with inline `content`
entries → create commit → PATCH the branch ref.  `ghApi` throws on any
non-OK response, so each failing step aborts the sequence. -/
def runPublish (env : GhEnv) (commitMessage : String) (edits : List EditEntry) :
    List GhCall × Except String String :=
  match env.refResp with
  | none => ([.getRef], .error "GitHub API error on /git/ref/heads/main")
  | some currentCommitSha =>
    match env.commitResp currentCommitSha with
    | none => ([.getRef, .getCommit currentCommitSha],
        .error "GitHub API error on /git/commits")
    | some currentTreeSha =>
      let tree : List ContentTreeEntry :=
        edits.map fun e => ⟨e.filePath, "100644", "blob", e.modifiedCode⟩
      let calls0 : List GhCall := [.getRef, .getCommit currentCommitSha,
        .createContentTree currentTreeSha tree]
      match env.contentTreeResp currentTreeSha tree with
      | none => (calls0, .error "GitHub API error on /git/trees")
      | some newTreeSha =>
        match env.createCommitResp newTreeSha [currentCommitSha] with
        | none => (calls0 ++ [.createCommit commitMessage newTreeSha [currentCommitSha]],
            .error "GitHub API error on /git/commits (create)")
        | some newCommitSha =>
          let calls1 := calls0 ++ [.createCommit commitMessage newTreeSha [currentCommitSha],
            .updateRef newCommitSha]
          if env.updateRefResp newCommitSha then
            (calls1, .ok newCommitSha)
          else
            (calls1, .error "GitHub API error on /git/refs/heads/main")

/-- Steps 1–5 of `runGenerateCommit` all return OK responses (everything
before the ref update). -/
def generateStepsOk (env : GhEnv) (files : List FileEntry) : Prop :=
  ∃ headSha baseTreeSha entries newTreeSha,
    env.refResp = some headSha ∧
    env.commitResp headSha = some baseTreeSha ∧
    (createBlobs env files).2 = .ok entries ∧
    env.treeResp baseTreeSha entries = some newTreeSha ∧
    env.createCommitResp newTreeSha [headSha] ≠ none

/-- Steps 1–4 of `runPublish` all return OK responses. -/
def publishStepsOk (env : GhEnv) (edits : List EditEntry) : Prop :=
  ∃ currentCommitSha currentTreeSha newTreeSha,
    env.refResp = some currentCommitSha ∧
    env.commitResp currentCommitSha = some currentTreeSha ∧
    env.contentTreeResp currentTreeSha
      (edits.map fun e => ⟨e.filePath, "100644", "blob", e.modifiedCode⟩) = some newTreeSha ∧
    env.createCommitResp newTreeSha [currentCommitSha] ≠ none

/-- The blob-creation loop only ever issues `createBlob` calls. -/
theorem updateRef_not_mem_createBlobs (env : GhEnv) (files : List FileEntry) (s : String) :
    GhCall.updateRef s ∉ (createBlobs env files).1 := by
  induction files with
  | nil => simp [createBlobs]
  | cons f fs ih =>
    simp only [createBlobs]
    cases h : env.blobResp f.content (f.encoding.getD "utf-8") with
    | none => simp
    | some sha => simpa using ih

/-- An environment in which the very first call (reading the HEAD ref)
returns a non-OK response. -/
def envRefFail : GhEnv :=
  ⟨none, fun _ => none, fun _ _ => none, fun _ _ => none, fun _ _ => none,
    fun _ _ => none, fun _ => false⟩

/-- An environment in which every GitHub call returns OK. -/
def envAllOk : GhEnv :=
  ⟨some "headsha", fun _ => some "basetree", fun _ _ => some "blobsha",
    fun _ _ => some "newtree", fun _ _ => some "newtree2",
    fun _ _ => some "newcommit", fun _ => true⟩

/-! ## One-time login token store (auth-token handler) -/

/-- One entry of the in-memory token store:
`{ email, sessionToken, expiresAt }`. -/
structure TokenData where
  email : String
  sessionToken : String
  expiresAt : Nat
deriving Repr, DecidableEq

/-- The handler's `Map<string, TokenData>`, as an association list in
insertion order.  A JS `Map` never holds two entries with the same key;
theorems that need this take the key-`Nodup` hypothesis explicitly. -/
abbrev TokenStore := List (String × TokenData)

/-- `TOKEN_TTL_MS = 60_000`. -/
def TOKEN_TTL_MS : Nat := 60000

/-- `cleanupExpired`: delete every entry whose `expiresAt` is strictly
before `now`.  Run at the top of the handler on every request. -/
def cleanupExpired (now : Nat) (s : TokenStore) : TokenStore :=
  s.filter fun kv => !decide (kv.2.expiresAt < now)

/-- `tokenStore.get token`. -/
def storeGet (tok : String) (s : TokenStore) : Option TokenData :=
  (s.find? fun kv => kv.1 == tok).map Prod.snd

/-- `tokenStore.set token data`: a JS `Map` overwrites an existing key in
place and otherwise appends at the end. -/
def storeSet (tok : String) (v : TokenData) : TokenStore → TokenStore
  | [] => [(tok, v)]
  | kv :: rest => if kv.1 == tok then (tok, v) :: rest else kv :: storeSet tok v rest

/-- `tokenStore.delete token`. -/
def storeDelete (tok : String) (s : TokenStore) : TokenStore :=
  s.filter fun kv => !(kv.1 == tok)

/-- Outcome of the GET (validate-and-consume) branch. -/
inductive ValidationResult where
  | valid (email sessionToken : String)
  | invalid
deriving Repr, DecidableEq

/-- The POST branch after a successful session check: `cleanupExpired` ran
at the top of the handler, then the fresh token is stored with
`expiresAt = Date.now() + TOKEN_TTL_MS`.  The randomly generated token
string is a parameter. -/
def postCreateToken (now : Nat) (tok email sessionToken : String) (s : TokenStore) : TokenStore :=
  storeSet tok ⟨email, sessionToken, now + TOKEN_TTL_MS⟩ (cleanupExpired now s)

/-- The GET branch: `cleanupExpired`, then look the token up; a missing or
expired token is deleted and reported invalid, otherwise the token is
consumed (deleted) and reported valid with its stored identity. -/
def getValidateToken (now : Nat) (tok : String) (s : TokenStore) :
    TokenStore × ValidationResult :=
  let s1 := cleanupExpired now s
  match storeGet tok s1 with
  | none => (storeDelete tok s1, .invalid)
  | some d =>
    if d.expiresAt < now then (storeDelete tok s1, .invalid)
    else (storeDelete tok s1, .valid d.email d.sessionToken)

/-! ## JS string primitives

Character-list implementations of the JS string methods the scraper
library uses, written structurally so that every concrete evaluation
reduces in the kernel.  JS whitespace and case conversion are modelled on
the ASCII range, which is all the inputs of the claims exercise. -/

/-- The whitespace characters of JS `String.prototype.trim` (ASCII). -/
def jsWhitespaceChar (c : Char) : Bool :=
  c == ' ' || c == '\t' || c == '\n' || c == '\r' || c == '\x0b' || c == '\x0c'

/-- Drop leading whitespace. -/
def trimLeftChars : List Char → List Char
  | [] => []
  | c :: cs => if jsWhitespaceChar c then trimLeftChars cs else c :: cs

/-- Drop trailing whitespace. -/
def trimRightChars (l : List Char) : List Char :=
  (trimLeftChars l.reverse).reverse

/-- JS `s.trim()`. -/
def jsTrim (s : String) : String :=
  ⟨trimRightChars (trimLeftChars s.data)⟩

/-- ASCII lower-casing of one character (JS `toLowerCase` on the inputs in
scope). -/
def lowerChar (c : Char) : Char :=
  if 'A' ≤ c ∧ c ≤ 'Z' then Char.ofNat (c.toNat + 32) else c

/-- JS `s.toLowerCase()`. -/
def jsToLower (s : String) : String :=
  ⟨s.data.map lowerChar⟩

/-- JS `s.split('\n')`. -/
def splitLinesChars : List Char → List Char → List (List Char)
  | [], acc => [acc.reverse]
  | c :: cs, acc =>
    if c = '\n' then acc.reverse :: splitLinesChars cs []
    else splitLinesChars cs (c :: acc)

def jsSplitLines (s : String) : List String :=
  (splitLinesChars s.data []).map List.asString

/-- JS `s.startsWith(p)`. -/
def jsStartsWith (s p : String) : Bool :=
  p.data.isPrefixOf s.data

/-- JS `s.endsWith(p)`. -/
def jsEndsWith (s p : String) : Bool :=
  p.data.reverse.isPrefixOf s.data.reverse

/-- JS `[...new Set(l)]`: deduplication keeping the first occurrence of
each element, in order. -/
def jsSetDedup (l : List String) : List String :=
  go l []
where
  go : List String → List String → List String
    | [], _ => []
    | x :: xs, seen =>
      if x ∈ seen then go xs seen else x :: go xs (x :: seen)

/-! ## `parseRobotsTxt` and `isBlockedByRobots` -/

/-- The line scan of `parseRobotsTxt`, carrying the `relevantSection`
flag.  On a `user-agent:` line the agent is the lower-cased trimmed line
with the (anchored, already lower-case) `user-agent:` prefix removed by
`replace` and re-trimmed; the section is relevant when the agent equals
`*` or the literal `'bochibotWeb/1.0'`.  On a `disallow:` line in a
relevant section, the path is the original-case trimmed line with the
anchored case-insensitive `disallow:` prefix and following whitespace
removed (`replace(/^disallow:\s*/i, '')`) and re-trimmed; empty paths are
skipped. -/
def robotsScan : List String → Bool → List String
  | [], _ => []
  | line :: rest, relevant =>
    let trimmed := jsToLower (jsTrim line)
    if jsStartsWith trimmed "user-agent:" then
      let agent := jsTrim ⟨trimmed.data.drop 11⟩
      robotsScan rest (agent == "*" || agent == "bochibotWeb/1.0")
    else if relevant && jsStartsWith trimmed "disallow:" then
      let path := jsTrim ⟨(jsTrim line).data.drop 9⟩
      if path ≠ "" then path :: robotsScan rest relevant
      else robotsScan rest relevant
    else robotsScan rest relevant

/-- `parseRobotsTxt` of `src/unnamed/part_003`. -/
def parseRobotsTxt (robotsTxt : String) : List String :=
  robotsScan (jsSplitLines robotsTxt) false

/-- `isBlockedByRobots`: some disallow rule is a literal string prefix of
the URL path. -/
def isBlockedByRobots (urlPath : String) (disallowed : List String) : Bool :=
  disallowed.any fun rule => jsStartsWith urlPath rule

/-! ## WHATWG `URL` model

An executable model of the `URL` constructor for the fragment the scraper
exercises: absolute `http://` / `https://` URLs and references resolved
against such a base.  Percent-encoding, dot-segment normalisation, host
case-folding, default-port elision and non-http schemes are outside the
model (the scraper filters `tel:` / `mailto:` / `javascript:` links before
any URL call, and every claim input is already in canonical case). -/

/-- A parsed URL: `origin = scheme ++ "://" ++ host`,
`href = origin ++ pathname ++ search ++ hash`. -/
structure URLRec where
  scheme : String
  host : String
  pathname : String
  search : String
  hash : String
deriving Repr, DecidableEq

def URLRec.origin (u : URLRec) : String :=
  u.scheme ++ "://" ++ u.host

def URLRec.href (u : URLRec) : String :=
  u.origin ++ u.pathname ++ u.search ++ u.hash

/-- Characters ending the host component. -/
def stopChar (c : Char) : Bool :=
  c == '/' || c == '?' || c == '#'

/-- Characters ending the path component. -/
def queryHashChar (c : Char) : Bool :=
  c == '?' || c == '#'

/-- Split `scheme://` off an absolute http(s) URL. -/
def stripSchemePrefix (s : String) : Option (String × List Char) :=
  if jsStartsWith s "http://" then some ("http", s.data.drop 7)
  else if jsStartsWith s "https://" then some ("https", s.data.drop 8)
  else none

/-- Split everything after the authority into pathname (defaulted to `/`
when empty, as for special schemes), search and hash. -/
def parsePathQueryHash (tail : List Char) : String × String × String :=
  let path := tail.takeWhile fun c => !queryHashChar c
  let rest := tail.dropWhile fun c => !queryHashChar c
  (⟨if path.isEmpty then ['/'] else path⟩,
    ⟨rest.takeWhile fun c => !(c == '#')⟩,
    ⟨rest.dropWhile fun c => !(c == '#')⟩)

/-- Parse an absolute http(s) URL; an empty host is a parse failure (the
constructor throws). -/
def parseAbsolute (s : String) : Option URLRec :=
  match stripSchemePrefix s with
  | none => none
  | some (scheme, rest) =>
    let host := rest.takeWhile fun c => !stopChar c
    if host.isEmpty then none
    else
      let pqh := parsePathQueryHash (rest.dropWhile fun c => !stopChar c)
      some ⟨scheme, ⟨host⟩, pqh.1, pqh.2.1, pqh.2.2⟩

/-- The directory part of a base path: everything up to and including the
last `/`. -/
def dirOfChars (l : List Char) : List Char :=
  (l.reverse.dropWhile fun c => !(c == '/')).reverse

/-- Resolve a relative reference against a parsed base. -/
def resolveRelative (base : URLRec) (r : String) : Option URLRec :=
  if r = "" then some ⟨base.scheme, base.host, base.pathname, base.search, ""⟩
  else if jsStartsWith r "//" then
    let rest := r.data.drop 2
    let host := rest.takeWhile fun c => !stopChar c
    if host.isEmpty then none
    else
      let pqh := parsePathQueryHash (rest.dropWhile fun c => !stopChar c)
      some ⟨base.scheme, ⟨host⟩, pqh.1, pqh.2.1, pqh.2.2⟩
  else if jsStartsWith r "/" then
    let pqh := parsePathQueryHash r.data
    some ⟨base.scheme, base.host, pqh.1, pqh.2.1, pqh.2.2⟩
  else if jsStartsWith r "?" then
    some ⟨base.scheme, base.host, base.pathname,
      ⟨r.data.takeWhile fun c => !(c == '#')⟩, ⟨r.data.dropWhile fun c => !(c == '#')⟩⟩
  else if jsStartsWith r "#" then
    some ⟨base.scheme, base.host, base.pathname, base.search, r⟩
  else
    let rp := r.data.takeWhile fun c => !queryHashChar c
    let rest := r.data.dropWhile fun c => !queryHashChar c
    some ⟨base.scheme, base.host, ⟨dirOfChars base.pathname.data ++ rp⟩,
      ⟨rest.takeWhile fun c => !(c == '#')⟩, ⟨rest.dropWhile fun c => !(c == '#')⟩⟩

/-- `new URL(url, base)`: the base string is parsed first (an invalid base
throws); a reference carrying its own http(s) scheme is parsed absolutely,
anything else is resolved against the base. -/
def jsNewURL (url base : String) : Option URLRec :=
  match parseAbsolute base with
  | none => none
  | some bp =>
    if jsStartsWith url "http://" || jsStartsWith url "https://" then
      parseAbsolute url
    else
      resolveRelative bp url

/-- `normalizeUrl` of `src/unnamed/part_003`: resolve against the base
origin, reject cross-origin URLs, blank out hash and search, serialise,
and strip one trailing slash unless the path is the bare root. -/
def normalizeUrl (url baseOrigin : String) : Option String :=
  match jsNewURL url baseOrigin with
  | none => none
  | some parsed =>
    match parseAbsolute baseOrigin with
    | none => none
    | some bp =>
      if parsed.origin ≠ bp.origin then none
      else
        let normalized := ({ parsed with search := "", hash := "" } : URLRec).href
        if jsEndsWith normalized "/" && parsed.pathname ≠ "/" then
          some ⟨normalized.data.dropLast⟩
        else some normalized

/-- `path.replace(/\//g, '--')`. -/
def replaceSlashes : List Char → List Char
  | [] => []
  | c :: cs => if c = '/' then '-' :: '-' :: replaceSlashes cs else c :: replaceSlashes cs

/-- The body of `urlToSlug` on a parsed URL's `pathname`: root maps to
`index`; otherwise drop one leading slash (`replace(/^\//, '')`), one
trailing slash, a trailing `.html`, and replace the remaining slashes
with `--`. -/
def slugOfPath (path : String) : String :=
  if path = "/" ∨ path = "" then "index"
  else
    let path1 := if jsStartsWith path "/" then (⟨path.data.drop 1⟩ : String) else path
    let path2 := if jsEndsWith path1 "/" then (⟨path1.data.dropLast⟩ : String) else path1
    let path3 := if jsEndsWith path2 ".html" then
      (⟨path2.data.take (path2.data.length - 5)⟩ : String) else path2
    ⟨replaceSlashes path3.data⟩

/-- `urlToSlug` of `src/unnamed/part_003`: `slugOfPath` of the parsed
pathname; a failed parse yields `unknown`. -/
def urlToSlug (url baseOrigin : String) : String :=
  match jsNewURL url baseOrigin with
  | none => "unknown"
  | some parsed => slugOfPath parsed.pathname

/-- The well-formedness invariant every successfully parsed URL enjoys. -/
structure URLWf (u : URLRec) : Prop where
  scheme_eq : u.scheme = "http" ∨ u.scheme = "https"
  host_ne : u.host.data ≠ []
  host_no_stop : ∀ c ∈ u.host.data, stopChar c = false
  path_head : u.pathname.data.head? = some '/'
  path_no_qh : ∀ c ∈ u.pathname.data, queryHashChar c = false

/-! ## Page extractor (`extractPageData` of `src/unnamed/part_003`)

The cheerio selector engine and the JS regexp engine are external
libraries: a `Doc` holds the results of the fixed queries the extractor
makes (element texts and attributes in document order, and the regex match
lists for the phone/email scans over the raw HTML).  The JSON parser
behind `JSON.parse` is a parameter `parse : String → Option Json`.
Everything the extractor then does with those results is translated from
the source. -/

/-- A JSON value as produced by `JSON.parse`. -/
inductive Json where
  | null
  | bool (b : Bool)
  | num (n : Int)
  | str (s : String)
  | arr (l : List Json)
  | obj (kvs : List (String × Json))

/-- JS truthiness of a JSON value. -/
def jsTruthy : Json → Bool
  | .null => false
  | .bool b => b
  | .num n => !(n == 0)
  | .str s => !(s == "")
  | .arr _ => true
  | .obj _ => true

/-- JS property access `o[k]` on a parsed object. -/
def jsonLookup (kvs : List (String × Json)) (k : String) : Option Json :=
  (kvs.find? fun kv => kv.1 == k).map Prod.snd

/-- `typeof v === 'object'` (true for null, arrays and objects). -/
def isObjectType : Json → Bool
  | .null => true
  | .arr _ => true
  | .obj _ => true
  | _ => false

/-- `o['@type'] === 'PostalAddress'`. -/
def isPostalType : Option Json → Bool
  | some (.str t) => t == "PostalAddress"
  | _ => false

/-- JS `String(v)` as used by `Array.prototype.join`.  The `attach` on the
nested list carries the membership proof for termination only. -/
def jsonToString : Json → String
  | .null => "null"
  | .bool b => cond b "true" "false"
  | .num n => toString n
  | .str s => s
  | .obj _ => "[object Object]"
  | .arr l => String.intercalate "," (l.attach.map fun x => jsonToString x.1)
decreasing_by
  have := List.sizeOf_lt_of_mem x.2
  simp only [Json.arr.sizeOf_spec]
  omega

/-- The first truthy result of a scan (`if (found) return found;`). -/
def firstTruthy : List (Option String) → Option String
  | [] => none
  | some s :: rest => if s ≠ "" then some s else firstTruthy rest
  | none :: rest => firstTruthy rest

/-- `findPostalAddress` of `src/unnamed/part_003`: a `PostalAddress` node
joins its truthy street/locality/region/postal-code fields; a truthy
`address` property is followed unconditionally; otherwise array elements
and object values are searched depth-first for the first truthy hit.  The
`attach` calls carry membership proofs for termination only. -/
def findPostalAddress : Json → Option String
  | .null => none
  | .bool _ => none
  | .num _ => none
  | .str _ => none
  | .arr l => firstTruthy (l.attach.map fun x => findPostalAddress x.1)
  | .obj kvs =>
    if isPostalType (jsonLookup kvs "@type") then
      let parts := ([jsonLookup kvs "streetAddress", jsonLookup kvs "addressLocality",
        jsonLookup kvs "addressRegion", jsonLookup kvs "postalCode"].filterMap id).filter jsTruthy
      if parts.isEmpty then none
      else some (String.intercalate ", " (parts.map jsonToString))
    else
      match h : jsonLookup kvs "address" with
      | some a =>
        if jsTruthy a then findPostalAddress a
        else firstTruthy (kvs.attach.map fun kv =>
          if isObjectType kv.1.2 then findPostalAddress kv.1.2 else none)
      | none => firstTruthy (kvs.attach.map fun kv =>
          if isObjectType kv.1.2 then findPostalAddress kv.1.2 else none)
decreasing_by
  · have := List.sizeOf_lt_of_mem x.2
    simp only [Json.arr.sizeOf_spec]
    omega
  · unfold jsonLookup at h
    obtain ⟨kv, hf, he⟩ := Option.map_eq_some'.mp h
    obtain ⟨k, vv⟩ := kv
    have hm := List.mem_of_find?_eq_some hf
    have hs := List.sizeOf_lt_of_mem hm
    simp only [Prod.mk.sizeOf_spec] at hs
    simp only at he
    subst he
    simp only [Json.obj.sizeOf_spec]
    omega
  · obtain ⟨⟨k, vv⟩, hm⟩ := kv
    have hs := List.sizeOf_lt_of_mem hm
    simp only [Prod.mk.sizeOf_spec] at hs
    simp only [Json.obj.sizeOf_spec]
    omega
  · obtain ⟨⟨k, vv⟩, hm⟩ := kv
    have hs := List.sizeOf_lt_of_mem hm
    simp only [Prod.mk.sizeOf_spec] at hs
    simp only [Json.obj.sizeOf_spec]
    omega

/-- JS `a || b` on strings (empty is falsy). -/
def jsOrS (a b : String) : String := if a = "" then b else a

/-- JS `expr || null` on an optional string (absent and empty both give
null). -/
def jsOrNull : Option String → Option String
  | none => none
  | some t => if t = "" then none else some t

/-- JS `s.split(sep)` on a single-character separator. -/
def splitCharAux (sep : Char) : List Char → List Char → List (List Char)
  | [], acc => [acc.reverse]
  | c :: cs, acc =>
    if c = sep then acc.reverse :: splitCharAux sep cs []
    else splitCharAux sep cs (c :: acc)

/-- `absoluteSrc.split('/').pop()?.split('?')[0] || ''`. -/
def filenameOf (absoluteSrc : String) : String :=
  match (splitCharAux '/' absoluteSrc.data []).getLast? with
  | none => ""
  | some seg => ⟨seg.takeWhile fun c => !(c == '?')⟩

/-- JS `s.includes(sub)`. -/
def listContainsSub (sub : List Char) : List Char → Bool
  | [] => sub.isEmpty
  | c :: cs => sub.isPrefixOf (c :: cs) || listContainsSub sub cs

def jsIncludes (s sub : String) : Bool := listContainsSub sub.data s.data

/-- The hardcoded social-platform domain list. -/
def SOCIAL_DOMAINS : List String :=
  ["facebook.com", "fb.com", "instagram.com", "twitter.com", "x.com",
    "linkedin.com", "youtube.com", "yelp.com", "google.com/maps",
    "maps.google.com", "tiktok.com", "nextdoor.com"]

/-- The binary/media extensions skipped by `extractInternalLinks`
(`/\.(pdf|jpg|jpeg|png|gif|svg|doc|docx|xls|xlsx|zip|mp4|mp3)$/i`). -/
def fileExtensions : List String :=
  [".pdf", ".jpg", ".jpeg", ".png", ".gif", ".svg", ".doc", ".docx",
    ".xls", ".xlsx", ".zip", ".mp4", ".mp3"]

def hasBinaryExtension (href : String) : Bool :=
  fileExtensions.any fun ext => jsEndsWith (jsToLower href) ext

/-- A heading element: optional tag name (`(el as any).tagName`) and
text. -/
structure HeadingElem where
  tagName : Option String
  text : String
deriving Repr, DecidableEq

/-- An anchor element: its text and optional `href` attribute. -/
structure AnchorElem where
  text : String
  href : Option String
deriving Repr, DecidableEq

/-- An `img` element: optional `src` and `alt` attributes. -/
structure ImgElem where
  src : Option String
  alt : Option String
deriving Repr, DecidableEq

/-- A form field element (`input`, `textarea` or `select`). -/
structure FieldElem where
  nameAttr : Option String
  typeAttr : Option String
  tagName : Option String
  placeholderAttr : Option String
deriving Repr, DecidableEq

/-- A `form` element with its field elements. -/
structure FormElem where
  actionAttr : Option String
  methodAttr : Option String
  fields : List FieldElem
deriving Repr, DecidableEq

/-- The results of the fixed cheerio queries and regex scans
`extractPageData` performs on one page, in document order. -/
structure Doc where
  titleTexts : List String
  metaDescriptionContent : Option String
  ogMetas : List (Option String × Option String)
  canonicalHref : Option String
  ldJsonScripts : List (Option String)
  headingElems : List HeadingElem
  textBlocks : List String
  imgElems : List ImgElem
  anchorElems : List AnchorElem
  phoneMatches : List String
  emailMatches : List String
  addressTexts : List String
  testimonialClassTexts : List String
  blockquoteTexts : List String
  formElems : List FormElem
  navAnchors : List AnchorElem

/-- The record `extractPageData` produces. -/
structure ImgRecord where
  src : String
  alt : String
  filename : String
deriving Repr, DecidableEq

structure FieldRecord where
  name : String
  type : String
  placeholder : String
deriving Repr, DecidableEq

structure FormRecord where
  action : String
  method : String
  fields : List FieldRecord
deriving Repr, DecidableEq

structure PageData where
  url : String
  slug : String
  title : Option String
  meta_description : Option String
  og_tags : List (String × String)
  canonical : Option String
  schema : List Json
  headings : List (Option Nat × String)
  body_text : String
  images : List ImgRecord
  internal_links : List String
  phone_numbers : List String
  email_addresses : List String
  physical_address : Option String
  social_links : List String
  testimonials : List String
  forms : List FormRecord
  navigation : List (String × String)
  snapshot_path : Option String

/-- JS-object insertion (`og_tags[prop] = content`): overwrite in place or
append. -/
def objUpsert (k v : String) : List (String × String) → List (String × String)
  | [] => [(k, v)]
  | kv :: rest => if kv.1 = k then (k, v) :: rest else kv :: objUpsert k v rest

/-- `parseInt(tag[1], 10)` on a lower-cased heading tag, `none` for NaN. -/
def headingLevel (tag : String) : Option Nat :=
  match tag.data.drop 1 with
  | c :: _ => if c.isDigit then some (c.toNat - '0'.toNat) else none
  | [] => none

/-- One testimonial collection pass: trimmed texts whose length lies in
the open window (20, 2000). -/
def collectWindow (texts : List String) : List String :=
  texts.filterMap fun raw =>
    let text := jsTrim raw
    if text ≠ "" ∧ 20 < text.length ∧ text.length < 2000 then some text else none

/-- The testimonial list of a page: class-selector pass, then blockquote
pass, then `[...new Set(...)]`. -/
def testimonialsOf (d : Doc) : List String :=
  jsSetDedup (collectWindow d.testimonialClassTexts ++ collectWindow d.blockquoteTexts)

/-- `extractInternalLinks`: all anchor `href`s except fragment / `tel:` /
`mailto:` / `javascript:` links and binary-extension downloads, normalised
against `new URL(baseOrigin).origin` and deduplicated via a `Set`; throws
(`none`) when `baseOrigin` itself does not parse. -/
def extractInternalLinks (d : Doc) (url baseOrigin : String) : Option (List String) :=
  match parseAbsolute baseOrigin with
  | none => none
  | some bp =>
    some (jsSetDedup (d.anchorElems.filterMap fun a =>
      match a.href with
      | none => none
      | some href =>
        if jsStartsWith href "#" || jsStartsWith href "tel:" ||
            jsStartsWith href "mailto:" || jsStartsWith href "javascript:" then none
        else if hasBinaryExtension href then none
        else normalizeUrl href bp.origin))

/-- `extractPageData`: produce the `PageData` for one page; the only
uncaught failure point is the `new URL(baseOrigin)` call inside
`extractInternalLinks`. -/
def extractPageData (parse : String → Option Json) (d : Doc) (url baseOrigin : String) :
    Option PageData :=
  match extractInternalLinks d url baseOrigin with
  | none => none
  | some internal_links =>
    let title := jsOrNull (some (jsTrim (d.titleTexts.headD "")))
    let meta_description := jsOrNull (d.metaDescriptionContent.map jsTrim)
    let og_tags := d.ogMetas.foldl (fun acc pm =>
      match pm.1, pm.2 with
      | some prop, some content =>
        if prop ≠ "" ∧ content ≠ "" then objUpsert prop content acc else acc
      | _, _ => acc) []
    let canonical := jsOrNull d.canonicalHref
    let schema := d.ldJsonScripts.filterMap fun o => parse (o.getD "")
    let headings := d.headingElems.filterMap fun el =>
      let text := jsTrim el.text
      if text ≠ "" then
        some (headingLevel (jsOrS ((el.tagName.map jsToLower).getD "") "h1"), text)
      else none
    let body_text := String.intercalate "\n"
      (d.textBlocks.filterMap fun raw =>
        let text := jsTrim raw
        if text ≠ "" ∧ 10 < text.length then some text else none)
    let images := d.imgElems.filterMap fun el =>
      match el.src with
      | none => none
      | some src =>
        let absoluteSrc := ((jsNewURL src url).map URLRec.href).getD src
        some (⟨absoluteSrc, el.alt.getD "", filenameOf absoluteSrc⟩ : ImgRecord)
    let phone_numbers := jsSetDedup d.phoneMatches
    let email_addresses := jsSetDedup (d.emailMatches.filter fun e =>
      !jsIncludes e ".png" && !jsIncludes e ".jpg" && !jsIncludes e ".svg")
    let physical_address :=
      match firstTruthy (schema.map findPostalAddress) with
      | some addr => some addr
      | none => jsOrNull (some (jsTrim (d.addressTexts.headD "")))
    let social_links := d.anchorElems.filterMap fun a =>
      let href := a.href.getD ""
      if SOCIAL_DOMAINS.any fun dom => jsIncludes href dom then some href else none
    let forms := d.formElems.filterMap fun f =>
      let fields := f.fields.map fun fld =>
        (⟨fld.nameAttr.getD "",
          jsOrS (fld.typeAttr.getD "") (jsOrS ((fld.tagName.map jsToLower).getD "") "input"),
          fld.placeholderAttr.getD ""⟩ : FieldRecord)
      if fields.isEmpty then none
      else some (⟨f.actionAttr.getD "", jsOrS (f.methodAttr.getD "") "get", fields⟩ : FormRecord)
    let navigation := d.navAnchors.filterMap fun a =>
      let text := jsTrim a.text
      let href := a.href.getD ""
      if text ≠ "" ∧ href ≠ "" ∧ !(jsStartsWith href "#") ∧ !(jsStartsWith href "tel:") ∧
          !(jsStartsWith href "mailto:") then some (text, href) else none
    some {
      url := url
      slug := urlToSlug url baseOrigin
      title := title
      meta_description := meta_description
      og_tags := og_tags
      canonical := canonical
      schema := schema
      headings := headings
      body_text := body_text
      images := images
      internal_links := internal_links
      phone_numbers := phone_numbers
      email_addresses := email_addresses
      physical_address := physical_address
      social_links := jsSetDedup social_links
      testimonials := testimonialsOf d
      forms := forms
      navigation := navigation
      snapshot_path := none }

/-- The empty document (no matching elements on the page). -/
def docEmpty : Doc :=
  ⟨[], none, [], none, [], [], [], [], [], [], [], [], [], [], [], []⟩

/-- A document whose only content is one testimonial text carried by both
the class selector and a blockquote. -/
def docTest : Doc :=
  { docEmpty with
    testimonialClassTexts := ["a very pleasant service, recommended"],
    blockquoteTexts := ["a very pleasant service, recommended"] }

end AstroClient

namespace AstroClient

/-- C1: in both commit handlers, if any step before the ref update (reading
the head ref, reading the head commit, creating a blob, creating the tree,
or creating the commit) returns a non-OK response, the handler returns an
error and the trace of issued GitHub calls contains no branch-ref PATCH, so
the branch head pointer is unchanged. -/
theorem commit_refUpdate_only_after_success
    (env : GhEnv) (clientName : String) (files : List FileEntry)
    (commitMessage : String) (edits : List EditEntry) :
    (¬ generateStepsOk env files →
      (∀ s, GhCall.updateRef s ∉ (runGenerateCommit env clientName files).1) ∧
      ∃ msg, (runGenerateCommit env clientName files).2 = Except.error msg) ∧
    (¬ publishStepsOk env edits →
      (∀ s, GhCall.updateRef s ∉ (runPublish env commitMessage edits).1) ∧
      ∃ msg, (runPublish env commitMessage edits).2 = Except.error msg) := by
  constructor
  · intro hfail
    cases h1 : env.refResp with
    | none => simp [runGenerateCommit, h1]
    | some headSha =>
      cases h2 : env.commitResp headSha with
      | none => simp [runGenerateCommit, h1, h2]
      | some baseTreeSha =>
        cases h3 : (createBlobs env files).2 with
        | error e =>
          refine ⟨fun s => ?_, ?_⟩ <;>
            simp [runGenerateCommit, h1, h2, h3, updateRef_not_mem_createBlobs]
        | ok entries =>
          cases h4 : env.treeResp baseTreeSha entries with
          | none =>
            refine ⟨fun s => ?_, ?_⟩ <;>
              simp [runGenerateCommit, h1, h2, h3, h4, updateRef_not_mem_createBlobs]
          | some newTreeSha =>
            cases h5 : env.createCommitResp newTreeSha [headSha] with
            | none =>
              refine ⟨fun s => ?_, ?_⟩ <;>
                simp [runGenerateCommit, h1, h2, h3, h4, h5, updateRef_not_mem_createBlobs]
            | some newCommitSha =>
              exact absurd ⟨headSha, baseTreeSha, entries, newTreeSha,
                h1, h2, h3, h4, by simp [h5]⟩ hfail
  · intro hfail
    cases h1 : env.refResp with
    | none => simp [runPublish, h1]
    | some currentCommitSha =>
      cases h2 : env.commitResp currentCommitSha with
      | none => simp [runPublish, h1, h2]
      | some currentTreeSha =>
        cases h3 : env.contentTreeResp currentTreeSha
            (edits.map fun e => ⟨e.filePath, "100644", "blob", e.modifiedCode⟩) with
        | none => simp [runPublish, h1, h2, h3]
        | some newTreeSha =>
          cases h4 : env.createCommitResp newTreeSha [currentCommitSha] with
          | none => simp [runPublish, h1, h2, h3, h4]
          | some newCommitSha =>
            exact absurd ⟨currentCommitSha, currentTreeSha, newTreeSha,
              h1, h2, h3, by simp [h4]⟩ hfail

/-- Witness for C1: with the head-ref read failing, neither handler issues
a ref update and both return errors. -/
theorem commit_refUpdate_only_after_success_witness :
    ((∀ s, GhCall.updateRef s ∉ (runGenerateCommit envRefFail "c" []).1) ∧
      ∃ msg, (runGenerateCommit envRefFail "c" []).2 = Except.error msg) ∧
    ((∀ s, GhCall.updateRef s ∉ (runPublish envRefFail "m" []).1) ∧
      ∃ msg, (runPublish envRefFail "m" []).2 = Except.error msg) := by
  have h := commit_refUpdate_only_after_success envRefFail "c" [] "m" []
  exact ⟨h.1 (by simp [generateStepsOk, envRefFail]),
    h.2 (by simp [publishStepsOk, envRefFail])⟩

/-- C2: in both commit handlers, every successful run created the new tree
with `base_tree` equal to the tree SHA of the head commit read in step 2,
and created the new commit pointing at the SHA returned for that new tree
with exactly one parent: the head commit SHA read in step 1. -/
theorem commit_success_tree_and_parent
    (env : GhEnv) (clientName : String) (files : List FileEntry)
    (commitMessage : String) (edits : List EditEntry) :
    (∀ trace sha, runGenerateCommit env clientName files = (trace, Except.ok sha) →
      ∃ headSha baseTreeSha entries newTreeSha msg,
        env.refResp = some headSha ∧
        env.commitResp headSha = some baseTreeSha ∧
        GhCall.createTree baseTreeSha entries ∈ trace ∧
        env.treeResp baseTreeSha entries = some newTreeSha ∧
        GhCall.createCommit msg newTreeSha [headSha] ∈ trace) ∧
    (∀ trace sha, runPublish env commitMessage edits = (trace, Except.ok sha) →
      ∃ currentCommitSha currentTreeSha entries newTreeSha,
        env.refResp = some currentCommitSha ∧
        env.commitResp currentCommitSha = some currentTreeSha ∧
        GhCall.createContentTree currentTreeSha entries ∈ trace ∧
        env.contentTreeResp currentTreeSha entries = some newTreeSha ∧
        GhCall.createCommit commitMessage newTreeSha [currentCommitSha] ∈ trace) := by
  constructor
  · intro trace sha hrun
    cases h1 : env.refResp with
    | none => simp [runGenerateCommit, h1] at hrun
    | some headSha =>
      cases h2 : env.commitResp headSha with
      | none => simp [runGenerateCommit, h1, h2] at hrun
      | some baseTreeSha =>
        cases h3 : (createBlobs env files).2 with
        | error e => simp [runGenerateCommit, h1, h2, h3] at hrun
        | ok entries =>
          cases h4 : env.treeResp baseTreeSha entries with
          | none => simp [runGenerateCommit, h1, h2, h3, h4] at hrun
          | some newTreeSha =>
            cases h5 : env.createCommitResp newTreeSha [headSha] with
            | none => simp [runGenerateCommit, h1, h2, h3, h4, h5] at hrun
            | some newCommitSha =>
              cases h6 : env.updateRefResp newCommitSha with
              | false => simp [runGenerateCommit, h1, h2, h3, h4, h5, h6] at hrun
              | true =>
                refine ⟨headSha, baseTreeSha, entries, newTreeSha,
                  "Generated site from creative brief\n\n" ++
                    toString files.length ++ " files generated for " ++ clientName,
                  rfl, h2, ?_, h4, ?_⟩ <;>
                · rw [show trace = (runGenerateCommit env clientName files).1 by rw [hrun]]
                  simp [runGenerateCommit, h1, h2, h3, h4, h5, h6]
  · intro trace sha hrun
    cases h1 : env.refResp with
    | none => simp [runPublish, h1] at hrun
    | some currentCommitSha =>
      cases h2 : env.commitResp currentCommitSha with
      | none => simp [runPublish, h1, h2] at hrun
      | some currentTreeSha =>
        cases h3 : env.contentTreeResp currentTreeSha
            (edits.map fun e => ⟨e.filePath, "100644", "blob", e.modifiedCode⟩) with
        | none => simp [runPublish, h1, h2, h3] at hrun
        | some newTreeSha =>
          cases h4 : env.createCommitResp newTreeSha [currentCommitSha] with
          | none => simp [runPublish, h1, h2, h3, h4] at hrun
          | some newCommitSha =>
            cases h5 : env.updateRefResp newCommitSha with
            | false => simp [runPublish, h1, h2, h3, h4, h5] at hrun
            | true =>
              refine ⟨currentCommitSha, currentTreeSha, _, newTreeSha, rfl, h2, ?_, h3, ?_⟩ <;>
              · rw [show trace = (runPublish env commitMessage edits).1 by rw [hrun]]
                simp [runPublish, h1, h2, h3, h4, h5]

theorem storeGet_eq_none_of_key_not_mem (tok : String) (s : TokenStore)
    (h : ∀ kv ∈ s, kv.1 ≠ tok) : storeGet tok s = none := by
  induction s with
  | nil => rfl
  | cons kv rest ih =>
    have hk : (kv.1 == tok) = false := by
      simpa using h kv (by simp)
    simp only [storeGet, List.find?_cons, hk]
    exact ih fun kv' hm => h kv' (List.mem_cons_of_mem _ hm)

theorem storeGet_delete (tok : String) (s : TokenStore) :
    storeGet tok (storeDelete tok s) = none := by
  apply storeGet_eq_none_of_key_not_mem
  intro kv hm
  have := (List.mem_filter.mp hm).2
  simpa using this

theorem storeGet_cleanup_delete (tok : String) (t : Nat) (s : TokenStore) :
    storeGet tok (cleanupExpired t (storeDelete tok s)) = none := by
  apply storeGet_eq_none_of_key_not_mem
  intro kv hm
  have hm2 := (List.mem_filter.mp hm).1
  have := (List.mem_filter.mp hm2).2
  simpa using this

/-- In every branch, the GET handler leaves the store with the token
deleted after cleanup. -/
theorem getValidateToken_fst (t : Nat) (tok : String) (s : TokenStore) :
    (getValidateToken t tok s).1 = storeDelete tok (cleanupExpired t s) := by
  simp only [getValidateToken]
  split
  · rfl
  · split <;> rfl

/-- Looking up a token right after `set`, through a cleanup that keeps the
fresh entry, yields the fresh data. -/
theorem storeGet_cleanup_set (tok : String) (v : TokenData) (t : Nat) (s : TokenStore)
    (hv : ¬ v.expiresAt < t) :
    storeGet tok (cleanupExpired t (storeSet tok v s)) = some v := by
  induction s with
  | nil =>
    simp [storeSet, cleanupExpired, storeGet, List.filter_cons, hv]
  | cons kv rest ih =>
    by_cases hk : kv.1 = tok
    · simp [storeSet, hk, cleanupExpired, List.filter_cons, hv, storeGet]
    · have hkb : (kv.1 == tok) = false := by simp [hk]
      by_cases hkv : kv.2.expiresAt < t
      · simpa [storeSet, hkb, cleanupExpired, List.filter_cons, hkv] using ih
      · simpa [storeSet, hkb, cleanupExpired, List.filter_cons, hkv, storeGet] using ih

/-- Looking up a token after `set` through a cleanup that discards the
fresh entry yields nothing, provided the store had no duplicate keys. -/
theorem storeGet_cleanup_set_expired (tok : String) (v : TokenData) (t : Nat) (s : TokenStore)
    (hw : (s.map Prod.fst).Nodup) (hv : v.expiresAt < t) :
    storeGet tok (cleanupExpired t (storeSet tok v s)) = none := by
  induction s with
  | nil =>
    simp [storeSet, cleanupExpired, storeGet, List.filter_cons, hv]
  | cons kv rest ih =>
    rw [List.map_cons, List.nodup_cons] at hw
    obtain ⟨hw1, hw2⟩ := hw
    by_cases hk : kv.1 = tok
    · have h1 : cleanupExpired t (storeSet tok v (kv :: rest)) = cleanupExpired t rest := by
        simp [storeSet, hk, cleanupExpired, List.filter_cons, hv]
      rw [h1]
      apply storeGet_eq_none_of_key_not_mem
      intro kv' hm hc
      exact hw1 (List.mem_map.mpr ⟨kv', (List.mem_filter.mp hm).1, by rw [hc, hk]⟩)
    · have hkb : (kv.1 == tok) = false := by simp [hk]
      by_cases hkv : kv.2.expiresAt < t
      · simpa [storeSet, hkb, cleanupExpired, List.filter_cons, hkv] using ih hw2
      · simpa [storeSet, hkb, cleanupExpired, List.filter_cons, hkv, storeGet] using ih hw2

/-- C4: a one-time token validates exactly once.  Starting from any store
without duplicate keys, after the POST handler stores a token at time
`now0`: a GET at any `t1 ≤ now0 + 60 s` returns valid with the stored
identity and removes the token; any later GET for the same token returns
invalid; and a GET at any `t1 > now0 + 60 s` returns invalid. -/
theorem one_time_token_single_use
    (s : TokenStore) (now0 : Nat) (tok email sess : String)
    (hw : (s.map Prod.fst).Nodup) :
    (∀ t1, t1 ≤ now0 + TOKEN_TTL_MS →
      (getValidateToken t1 tok (postCreateToken now0 tok email sess s)).2 =
        ValidationResult.valid email sess ∧
      storeGet tok (getValidateToken t1 tok (postCreateToken now0 tok email sess s)).1 = none ∧
      ∀ t2, (getValidateToken t2 tok
        (getValidateToken t1 tok (postCreateToken now0 tok email sess s)).1).2 =
          ValidationResult.invalid) ∧
    (∀ t1, now0 + TOKEN_TTL_MS < t1 →
      (getValidateToken t1 tok (postCreateToken now0 tok email sess s)).2 =
        ValidationResult.invalid) := by
  constructor
  · intro t1 ht
    have hv : ¬ (⟨email, sess, now0 + TOKEN_TTL_MS⟩ : TokenData).expiresAt < t1 :=
      Nat.not_lt.mpr ht
    have hget := storeGet_cleanup_set tok ⟨email, sess, now0 + TOKEN_TTL_MS⟩ t1
      (cleanupExpired now0 s) hv
    refine ⟨?_, ?_, ?_⟩
    · simp only [postCreateToken, getValidateToken, hget]
      simp [hv]
    · rw [getValidateToken_fst]
      exact storeGet_delete _ _
    · intro t2
      rw [getValidateToken_fst]
      simp only [getValidateToken, storeGet_cleanup_delete]
  · intro t1 ht
    have hw1 : ((cleanupExpired now0 s).map Prod.fst).Nodup := by
      refine List.Nodup.sublist ?_ hw
      exact List.Sublist.map _ (List.filter_sublist s)
    have hget := storeGet_cleanup_set_expired tok ⟨email, sess, now0 + TOKEN_TTL_MS⟩ t1
      (cleanupExpired now0 s) hw1 ht
    simp only [postCreateToken, getValidateToken, hget]

/-- Witness for C4 at concrete times: create at 0, validate at 60 000 ms
(valid), re-validate at 70 000 ms (invalid), and a fresh token validated
at 60 001 ms (invalid). -/
theorem one_time_token_single_use_witness :
    (getValidateToken 60000 "t" (postCreateToken 0 "t" "e" "s" [])).2 =
      ValidationResult.valid "e" "s" ∧
    (getValidateToken 70000 "t"
      (getValidateToken 60000 "t" (postCreateToken 0 "t" "e" "s" [])).1).2 =
      ValidationResult.invalid ∧
    (getValidateToken 60001 "t" (postCreateToken 0 "t" "e" "s" [])).2 =
      ValidationResult.invalid := by
  have h := one_time_token_single_use [] 0 "t" "e" "s" (by simp)
  exact ⟨(h.1 60000 (by norm_num [TOKEN_TTL_MS])).1,
    (h.1 60000 (by norm_num [TOKEN_TTL_MS])).2.2 70000,
    h.2 60001 (by norm_num [TOKEN_TTL_MS])⟩

/-- Witness for C2: a concrete all-OK environment. -/
theorem commit_success_tree_and_parent_witness :
    (∃ headSha baseTreeSha entries newTreeSha msg,
      envAllOk.refResp = some headSha ∧
      envAllOk.commitResp headSha = some baseTreeSha ∧
      GhCall.createTree baseTreeSha entries ∈ (runGenerateCommit envAllOk "c" [⟨"p", "x", none⟩]).1 ∧
      envAllOk.treeResp baseTreeSha entries = some newTreeSha ∧
      GhCall.createCommit msg newTreeSha [headSha] ∈ (runGenerateCommit envAllOk "c" [⟨"p", "x", none⟩]).1) ∧
    (∃ currentCommitSha currentTreeSha entries newTreeSha,
      envAllOk.refResp = some currentCommitSha ∧
      envAllOk.commitResp currentCommitSha = some currentTreeSha ∧
      GhCall.createContentTree currentTreeSha entries ∈ (runPublish envAllOk "m" [⟨"p", "y"⟩]).1 ∧
      envAllOk.contentTreeResp currentTreeSha entries = some newTreeSha ∧
      GhCall.createCommit "m" newTreeSha [currentCommitSha] ∈ (runPublish envAllOk "m" [⟨"p", "y"⟩]).1) := by
  have h := commit_success_tree_and_parent envAllOk "c" [⟨"p", "x", none⟩] "m" [⟨"p", "y"⟩]
  exact ⟨h.1 (runGenerateCommit envAllOk "c" [⟨"p", "x", none⟩]).1 "newcommit" rfl,
    h.2 (runPublish envAllOk "m" [⟨"p", "y"⟩]).1 "newcommit" rfl⟩

/-- C5 (evaluation of the code at the failing input): a `Disallow` rule
inside a `User-agent: BochiBotWeb/1.0` block is dropped, because the scan
lower-cases the line and then compares the agent against the mixed-case
literal `'bochibotWeb/1.0'`, which no lower-cased string can equal, while
the same rule under `User-agent: *` is returned. -/
theorem parseRobotsTxt_drops_specific_agent_rule :
    parseRobotsTxt "User-agent: BochiBotWeb/1.0\nDisallow: /private" = [] ∧
    parseRobotsTxt "User-agent: *\nDisallow: /private" = ["/private"] := by
  constructor <;> rfl

/-! ### List and string helper lemmas -/

theorem strExt {a b : String} (h : a.data = b.data) : a = b := by
  cases a; cases b; exact congrArg String.mk h

theorem takeWhile_append_all {α} (p : α → Bool) (l1 l2 : List α) (h : ∀ a ∈ l1, p a = true) :
    (l1 ++ l2).takeWhile p = l1 ++ l2.takeWhile p := by
  induction l1 with
  | nil => simp
  | cons a l ih =>
    have ha := h a (by simp)
    simp only [List.cons_append, List.takeWhile_cons, ha, if_true]
    rw [ih fun x hx => h x (by simp [hx])]

theorem dropWhile_append_all {α} (p : α → Bool) (l1 l2 : List α) (h : ∀ a ∈ l1, p a = true) :
    (l1 ++ l2).dropWhile p = l2.dropWhile p := by
  induction l1 with
  | nil => simp
  | cons a l ih =>
    have ha := h a (by simp)
    simp only [List.cons_append, List.dropWhile_cons, ha, if_true]
    exact ih fun x hx => h x (by simp [hx])

theorem takeWhile_head_false {α} (p : α → Bool) (l : List α) (a : α)
    (h : l.head? = some a) (hp : p a = false) : l.takeWhile p = [] := by
  cases l with
  | nil => rfl
  | cons b t =>
    obtain rfl : b = a := by simpa using h
    simp [List.takeWhile_cons, hp]

theorem dropWhile_head_false {α} (p : α → Bool) (l : List α) (a : α)
    (h : l.head? = some a) (hp : p a = false) : l.dropWhile p = l := by
  cases l with
  | nil => rfl
  | cons b t =>
    obtain rfl : b = a := by simpa using h
    simp [List.dropWhile_cons, hp]

theorem takeWhile_all {α} (p : α → Bool) (l : List α) (h : ∀ a ∈ l, p a = true) :
    l.takeWhile p = l := by
  simpa using takeWhile_append_all p l [] h

theorem dropWhile_all {α} (p : α → Bool) (l : List α) (h : ∀ a ∈ l, p a = true) :
    l.dropWhile p = [] := by
  simpa using dropWhile_append_all p l [] h

theorem head_dropWhile_false {α} (p : α → Bool) (l : List α) (a : α)
    (h : (l.dropWhile p).head? = some a) : p a = false := by
  induction l with
  | nil => simp at h
  | cons b t ih =>
    rw [List.dropWhile_cons] at h
    by_cases hb : p b = true
    · rw [if_pos hb] at h
      exact ih h
    · rw [if_neg hb] at h
      obtain rfl : b = a := by simpa using h
      simpa using hb

theorem dropWhile_ne_nil_of_mem {α} (p : α → Bool) (l : List α) (a : α)
    (hm : a ∈ l) (hp : p a = false) : l.dropWhile p ≠ [] := by
  induction l with
  | nil => simp at hm
  | cons b t ih =>
    rw [List.dropWhile_cons]
    by_cases hb : p b = true
    · rw [if_pos hb]
      rcases List.mem_cons.mp hm with rfl | hm2
      · rw [hp] at hb; exact absurd hb (by simp)
      · exact ih hm2
    · rw [if_neg hb]; simp

theorem head_append_of_ne_nil {α} (l t : List α) (h : l ≠ []) :
    (l ++ t).head? = l.head? := by
  cases l with
  | nil => exact absurd rfl h
  | cons a l2 => rfl

theorem dropLast_append_of_ne_nil {α} (a b : List α) (h : b ≠ []) :
    (a ++ b).dropLast = a ++ b.dropLast := by
  induction a with
  | nil => simp
  | cons x xs ih =>
    have : xs ++ b ≠ [] := by
      intro hc
      exact h (List.append_eq_nil.mp hc).2
    simp only [List.cons_append, List.dropLast_cons_of_ne_nil this]
    rw [ih]

theorem isPrefixOf_append_self (l t : List Char) : l.isPrefixOf (l ++ t) = true := by
  induction l with
  | nil => simp [List.isPrefixOf]
  | cons a as ih => simp [List.isPrefixOf, ih]

theorem head_of_singleton_isPrefixOf (a : Char) (l : List Char)
    (h : [a].isPrefixOf l = true) : l.head? = some a := by
  cases l with
  | nil => simp [List.isPrefixOf] at h
  | cons b t =>
    simp [List.isPrefixOf] at h
    simp [h]

theorem mem_of_mem_dropLast {α} (a : α) (l : List α) (h : a ∈ l.dropLast) : a ∈ l :=
  List.Sublist.mem h (List.dropLast_sublist l)

/-! ### URL model invariants -/

theorem stripSchemePrefix_cases (s sc : String) (r : List Char)
    (h : stripSchemePrefix s = some (sc, r)) :
    (sc = "http" ∧ r = s.data.drop 7) ∨ (sc = "https" ∧ r = s.data.drop 8) := by
  unfold stripSchemePrefix at h
  split at h
  · rw [Option.some.injEq, Prod.mk.injEq] at h
    exact Or.inl ⟨h.1.symm, h.2.symm⟩
  · split at h
    · rw [Option.some.injEq, Prod.mk.injEq] at h
      exact Or.inr ⟨h.1.symm, h.2.symm⟩
    · exact absurd h (by simp)

theorem parsePathQueryHash_path (tail : List Char)
    (hhead : ∀ a, tail.head? = some a → stopChar a = true) :
    (parsePathQueryHash tail).1.data.head? = some '/' ∧
    ∀ c ∈ (parsePathQueryHash tail).1.data, queryHashChar c = false := by
  cases tail with
  | nil =>
    refine ⟨by simp [parsePathQueryHash], ?_⟩
    intro c hc
    have : c = '/' := by simpa [parsePathQueryHash] using hc
    subst this
    rfl
  | cons a t =>
    have hs := hhead a rfl
    by_cases hq : queryHashChar a = true
    · have h1 : (a :: t).takeWhile (fun c => !queryHashChar c) = [] :=
        takeWhile_head_false _ _ a rfl (by simp [hq])
      refine ⟨by simp [parsePathQueryHash, h1], ?_⟩
      intro c hc
      have : c = '/' := by simpa [parsePathQueryHash, h1] using hc
      subst this
      rfl
    · have hq2 : queryHashChar a = false := by
        rw [Bool.not_eq_true] at hq
        exact hq
      have ha : a = '/' := by
        simp only [stopChar, Bool.or_eq_true, beq_iff_eq] at hs
        simp only [queryHashChar, Bool.or_eq_true, beq_iff_eq] at hq
        rcases hs with (h | h) | h
        · exact h
        · exact absurd (Or.inl h) hq
        · exact absurd (Or.inr h) hq
      subst ha
      have h1 : ('/' :: t).takeWhile (fun c => !queryHashChar c) =
          '/' :: t.takeWhile (fun c => !queryHashChar c) := by
        simp [List.takeWhile_cons, hq2]
      refine ⟨by simp [parsePathQueryHash, h1], ?_⟩
      intro c hc
      have hc2 : c = '/' ∨ c ∈ t.takeWhile (fun c => !queryHashChar c) := by
        simpa [parsePathQueryHash, h1] using hc
      rcases hc2 with rfl | hc3
      · rfl
      · have := List.mem_takeWhile_imp hc3
        simpa using this

theorem parseAbsolute_wf (s : String) (u : URLRec) (h : parseAbsolute s = some u) : URLWf u := by
  unfold parseAbsolute at h
  cases hs : stripSchemePrefix s with
  | none => rw [hs] at h; exact absurd h (by simp)
  | some pr =>
    obtain ⟨sc, rest⟩ := pr
    rw [hs] at h
    simp only at h
    split at h
    · exact absurd h (by simp)
    · rename_i hne
      rw [Option.some.injEq] at h
      subst h
      have hpath := parsePathQueryHash_path (rest.dropWhile fun c => !stopChar c)
        (fun a ha => by
          have := head_dropWhile_false _ _ _ ha
          simpa using this)
      refine ⟨?_, ?_, ?_, hpath.1, hpath.2⟩
      · rcases stripSchemePrefix_cases s sc rest hs with ⟨h1, _⟩ | ⟨h1, _⟩
        · exact Or.inl h1
        · exact Or.inr h1
      · intro hc
        apply hne
        simpa using hc
      · intro c hc
        have := List.mem_takeWhile_imp hc
        simpa using this

theorem dirOfChars_prefix (l : List Char) :
    dirOfChars l ++ (l.reverse.takeWhile fun c => !(c == '/')).reverse = l := by
  unfold dirOfChars
  rw [← List.reverse_append, List.takeWhile_append_dropWhile, List.reverse_reverse]

theorem dirOfChars_ne_nil (l : List Char) (h : '/' ∈ l) : dirOfChars l ≠ [] := by
  unfold dirOfChars
  intro hc
  rw [List.reverse_eq_nil_iff] at hc
  exact dropWhile_ne_nil_of_mem (fun c => !(c == '/')) l.reverse '/'
    (by simpa using h) (by simp) hc

theorem dirOfChars_head (l : List Char) (h : l.head? = some '/') :
    (dirOfChars l).head? = some '/' := by
  have hm : '/' ∈ l := by
    cases l with
    | nil => simp at h
    | cons a t =>
      have : a = '/' := by simpa using h
      simp [this]
  have hne := dirOfChars_ne_nil l hm
  have hp := dirOfChars_prefix l
  rw [← hp, head_append_of_ne_nil _ _ hne] at h
  exact h

theorem mem_dirOfChars (l : List Char) (c : Char) (h : c ∈ dirOfChars l) : c ∈ l := by
  unfold dirOfChars at h
  rw [List.mem_reverse] at h
  have := List.Sublist.mem h (List.dropWhile_sublist _)
  rwa [List.mem_reverse] at this

theorem resolveRelative_wf (base : URLRec) (r : String) (u : URLRec)
    (hb : URLWf base) (h : resolveRelative base r = some u) : URLWf u := by
  unfold resolveRelative at h
  split at h
  · rw [Option.some.injEq] at h
    subst h
    exact ⟨hb.scheme_eq, hb.host_ne, hb.host_no_stop, hb.path_head, hb.path_no_qh⟩
  · split at h
    · simp only at h
      split at h
      · exact absurd h (by simp)
      · rename_i hne
        rw [Option.some.injEq] at h
        subst h
        have hpath := parsePathQueryHash_path ((r.data.drop 2).dropWhile fun c => !stopChar c)
          (fun a ha => by
            have := head_dropWhile_false _ _ _ ha
            simpa using this)
        refine ⟨hb.scheme_eq, ?_, ?_, hpath.1, hpath.2⟩
        · intro hc
          apply hne
          simpa using hc
        · intro c hc
          have := List.mem_takeWhile_imp hc
          simpa using this
    · split at h
      · rename_i hslash
        rw [Option.some.injEq] at h
        subst h
        have hhd : r.data.head? = some '/' := head_of_singleton_isPrefixOf '/' r.data hslash
        have hpath := parsePathQueryHash_path r.data
          (fun a ha => by
            rw [hhd] at ha
            obtain rfl : '/' = a := by simpa using ha
            rfl)
        exact ⟨hb.scheme_eq, hb.host_ne, hb.host_no_stop, hpath.1, hpath.2⟩
      · split at h
        · rw [Option.some.injEq] at h
          subst h
          exact ⟨hb.scheme_eq, hb.host_ne, hb.host_no_stop, hb.path_head, hb.path_no_qh⟩
        · split at h
          · rw [Option.some.injEq] at h
            subst h
            exact ⟨hb.scheme_eq, hb.host_ne, hb.host_no_stop, hb.path_head, hb.path_no_qh⟩
          · rw [Option.some.injEq] at h
            subst h
            have hdir_ne : dirOfChars base.pathname.data ≠ [] := by
              apply dirOfChars_ne_nil
              have hh := hb.path_head
              cases hbp : base.pathname.data with
              | nil => rw [hbp] at hh; simp at hh
              | cons a t =>
                rw [hbp] at hh
                obtain rfl : a = '/' := by simpa using hh
                simp
            refine ⟨hb.scheme_eq, hb.host_ne, hb.host_no_stop, ?_, ?_⟩
            · show (dirOfChars base.pathname.data ++
                (r.data.takeWhile fun c => !queryHashChar c)).head? = some '/'
              rw [head_append_of_ne_nil _ _ hdir_ne]
              exact dirOfChars_head _ hb.path_head
            · intro c hc
              have hc2 : c ∈ dirOfChars base.pathname.data ++
                  (r.data.takeWhile fun c => !queryHashChar c) := hc
              show queryHashChar c = false
              rcases List.mem_append.mp hc2 with hc1 | hc3
              · exact hb.path_no_qh c (mem_dirOfChars _ _ hc1)
              · have := List.mem_takeWhile_imp hc3
                simpa using this

theorem jsNewURL_wf (url base : String) (u : URLRec) (h : jsNewURL url base = some u) :
    URLWf u := by
  unfold jsNewURL at h
  cases hb : parseAbsolute base with
  | none => rw [hb] at h; exact absurd h (by simp)
  | some bp =>
    rw [hb] at h
    simp only at h
    split at h
    · exact parseAbsolute_wf url u h
    · exact resolveRelative_wf bp url u (parseAbsolute_wf base bp hb) h

/-! ### Round trip: parsing a serialised same-origin URL -/

theorem takeWhile_host_path (p : Char → Bool) (host path : List Char) (a : Char)
    (hhs : ∀ c ∈ host, p c = true) (hp : path.head? = some a) (hpa : p a = false) :
    (host ++ path).takeWhile p = host ∧ (host ++ path).dropWhile p = path := by
  constructor
  · rw [takeWhile_append_all p host path hhs, takeWhile_head_false p path a hp hpa,
      List.append_nil]
  · rw [dropWhile_append_all p host path hhs, dropWhile_head_false p path a hp hpa]

theorem parseAbsolute_construct (scheme host path : String)
    (hs : scheme = "http" ∨ scheme = "https")
    (hh : host.data ≠ []) (hhs : ∀ c ∈ host.data, stopChar c = false)
    (hp : path.data.head? = some '/') (hpq : ∀ c ∈ path.data, queryHashChar c = false) :
    parseAbsolute (scheme ++ "://" ++ host ++ path) = some ⟨scheme, host, path, "", ""⟩ := by
  have hpne : path.data ≠ [] := by
    intro hc
    rw [hc] at hp
    simp at hp
  have hemp : host.data.isEmpty = false := by
    cases hd : host.data with
    | nil => exact absurd hd hh
    | cons a t => rfl
  have hsplit := takeWhile_host_path (fun c => !stopChar c) host.data path.data '/'
    (fun c hc => by simp [hhs c hc]) hp (by rfl)
  have hq2 : ∀ c ∈ path.data, (!queryHashChar c) = true := fun c hc => by simp [hpq c hc]
  have hisEmpty : path.data.isEmpty = false := by
    cases hd : path.data with
    | nil => exact absurd hd hpne
    | cons a t => rfl
  have hpqh : parsePathQueryHash path.data = (path, "", "") := by
    unfold parsePathQueryHash
    simp only [takeWhile_all _ _ hq2, dropWhile_all _ _ hq2, hisEmpty]
    rfl
  rcases hs with rfl | rfl
  · have key : ("http" ++ "://" ++ host ++ path).data =
        "http://".data ++ (host.data ++ path.data) := by
      simp only [String.data_append]
      rw [show "http".data ++ "://".data = "http://".data from rfl, List.append_assoc]
    have hpfx : jsStartsWith ("http" ++ "://" ++ host ++ path) "http://" = true := by
      unfold jsStartsWith
      rw [key]
      exact isPrefixOf_append_self _ _
    have hstrip : stripSchemePrefix ("http" ++ "://" ++ host ++ path) =
        some ("http", host.data ++ path.data) := by
      unfold stripSchemePrefix
      rw [if_pos hpfx, key]
      rw [show (7 : Nat) = "http://".data.length from rfl, List.drop_left]
    unfold parseAbsolute
    rw [hstrip]
    simp only [hsplit.1, hsplit.2, hemp, hpqh]
    rfl
  · have key : ("https" ++ "://" ++ host ++ path).data =
        "https://".data ++ (host.data ++ path.data) := by
      simp only [String.data_append]
      rw [show "https".data ++ "://".data = "https://".data from rfl, List.append_assoc]
    have hpfx : jsStartsWith ("https" ++ "://" ++ host ++ path) "http://" = false := by
      unfold jsStartsWith
      rw [key]
      rfl
    have hpfx2 : jsStartsWith ("https" ++ "://" ++ host ++ path) "https://" = true := by
      unfold jsStartsWith
      rw [key]
      exact isPrefixOf_append_self _ _
    have hstrip : stripSchemePrefix ("https" ++ "://" ++ host ++ path) =
        some ("https", host.data ++ path.data) := by
      unfold stripSchemePrefix
      rw [if_neg (by rw [hpfx]; simp), if_pos hpfx2, key]
      rw [show (8 : Nat) = "https://".data.length from rfl, List.drop_left]
    unfold parseAbsolute
    rw [hstrip]
    simp only [hsplit.1, hsplit.2, hemp, hpqh]
    rfl

/-- Every successful `normalizeUrl` output is the parsed URL's origin
followed by its pathname, possibly with one trailing character removed. -/
theorem normalizeUrl_some_form (url o v : String) (h : normalizeUrl url o = some v) :
    ∃ p bp path2, jsNewURL url o = some p ∧ parseAbsolute o = some bp ∧
      p.origin = bp.origin ∧ v = p.origin ++ path2 ∧
      path2.data.head? = some '/' ∧ (∀ c ∈ path2.data, queryHashChar c = false) ∧
      (path2 = p.pathname ∨ (path2.data = p.pathname.data.dropLast ∧ p.pathname ≠ "/")) := by
  unfold normalizeUrl at h
  cases hj : jsNewURL url o with
  | none => rw [hj] at h; exact absurd h (by simp)
  | some p =>
    rw [hj] at h
    cases hbo : parseAbsolute o with
    | none => rw [hbo] at h; exact absurd h (by simp)
    | some bp =>
      rw [hbo] at h
      simp only at h
      have hwf := jsNewURL_wf url o p hj
      have hpne : p.pathname.data ≠ [] := by
        intro hc
        have h2 := hwf.path_head
        rw [hc] at h2
        simp at h2
      have hnorm : ({ p with search := "", hash := "" } : URLRec).href =
          p.origin ++ p.pathname := by
        apply strExt
        simp [URLRec.href, URLRec.origin, String.data_append]
      have hd : (({ p with search := "", hash := "" } : URLRec).href).data =
          p.origin.data ++ p.pathname.data := by
        rw [hnorm, String.data_append]
      split at h
      · exact absurd h (by simp)
      · rename_i hor
        have horigin : p.origin = bp.origin := not_ne_iff.mp hor
        split at h
        · rename_i hcond
          rw [Option.some.injEq] at h
          subst h
          rw [Bool.and_eq_true] at hcond
          have hne : p.pathname ≠ "/" := of_decide_eq_true hcond.2
          refine ⟨p, bp, ⟨p.pathname.data.dropLast⟩, rfl, rfl, horigin, ?_, ?_, ?_,
            Or.inr ⟨rfl, hne⟩⟩
          · apply strExt
            show (({ p with search := "", hash := "" } : URLRec).href).data.dropLast = _
            rw [hd, dropLast_append_of_ne_nil _ _ hpne, String.data_append]
          · have hh := hwf.path_head
            cases hpd : p.pathname.data with
            | nil => exact absurd hpd hpne
            | cons a t =>
              rw [hpd] at hh
              obtain rfl : a = '/' := by simpa using hh
              have ht : t ≠ [] := by
                intro hc
                apply hne
                apply strExt
                rw [hpd, hc]
              show (('/' :: t).dropLast).head? = some '/'
              simp [List.dropLast_cons_of_ne_nil ht]
          · intro c hc
            exact hwf.path_no_qh c (mem_of_mem_dropLast _ _ hc)
        · rw [Option.some.injEq] at h
          subst h
          exact ⟨p, bp, p.pathname, rfl, rfl, horigin, hnorm, hwf.path_head,
            hwf.path_no_qh, Or.inl rfl⟩

/-- Re-normalising a serialised same-origin URL whose path does not end in
a slash (or is the bare root) returns it unchanged. -/
theorem normalizeUrl_reparse_self (o : String) (p bp : URLRec) (path2 : String)
    (hwf : URLWf p) (hbo : parseAbsolute o = some bp) (horigin : p.origin = bp.origin)
    (hhd : path2.data.head? = some '/') (hq : ∀ c ∈ path2.data, queryHashChar c = false)
    (hcond : jsEndsWith (p.origin ++ path2) "/" = false ∨ path2 = "/") :
    normalizeUrl (p.origin ++ path2) o = some (p.origin ++ path2) := by
  have hv : p.origin ++ path2 = p.scheme ++ "://" ++ p.host ++ path2 := rfl
  have hpa : parseAbsolute (p.origin ++ path2) = some ⟨p.scheme, p.host, path2, "", ""⟩ := by
    rw [hv]
    exact parseAbsolute_construct p.scheme p.host path2 hwf.scheme_eq hwf.host_ne
      hwf.host_no_stop hhd hq
  have hstart : (jsStartsWith (p.origin ++ path2) "http://" ||
      jsStartsWith (p.origin ++ path2) "https://") = true := by
    rcases hwf.scheme_eq with hsc | hsc
    · have h1 : jsStartsWith (p.origin ++ path2) "http://" = true := by
        unfold jsStartsWith
        have h2 : (p.origin ++ path2).data = "http://".data ++ (p.host.data ++ path2.data) := by
          rw [hv, hsc]
          simp only [String.data_append]
          rw [show "http".data ++ "://".data = "http://".data from rfl, List.append_assoc]
        rw [h2]
        exact isPrefixOf_append_self _ _
      simp [h1]
    · have h1 : jsStartsWith (p.origin ++ path2) "https://" = true := by
        unfold jsStartsWith
        have h2 : (p.origin ++ path2).data = "https://".data ++ (p.host.data ++ path2.data) := by
          rw [hv, hsc]
          simp only [String.data_append]
          rw [show "https".data ++ "://".data = "https://".data from rfl, List.append_assoc]
        rw [h2]
        exact isPrefixOf_append_self _ _
      simp [h1]
  have hju : jsNewURL (p.origin ++ path2) o = some ⟨p.scheme, p.host, path2, "", ""⟩ := by
    unfold jsNewURL
    rw [hbo]
    show (if (jsStartsWith (p.origin ++ path2) "http://" ||
        jsStartsWith (p.origin ++ path2) "https://") = true then
        parseAbsolute (p.origin ++ path2) else resolveRelative bp (p.origin ++ path2)) = _
    rw [if_pos hstart, hpa]
  have hrec_origin : (⟨p.scheme, p.host, path2, "", ""⟩ : URLRec).origin = bp.origin := horigin
  have hnorm2 : ({ (⟨p.scheme, p.host, path2, "", ""⟩ : URLRec) with
      search := "", hash := "" } : URLRec).href = p.origin ++ path2 := by
    apply strExt
    simp [URLRec.href, URLRec.origin, String.data_append]
  unfold normalizeUrl
  simp only [hju, hbo]
  rw [if_neg (not_ne_iff.mpr hrec_origin)]
  simp only [hnorm2]
  rcases hcond with hend | hroot
  · rw [hend]
    simp
  · subst hroot
    simp

theorem slash_not_mem_replaceSlashes (l : List Char) : '/' ∉ replaceSlashes l := by
  induction l with
  | nil => simp [replaceSlashes]
  | cons c cs ih =>
    by_cases hc : c = '/'
    · subst hc
      simp [replaceSlashes, ih]
    · simp [replaceSlashes, hc, ih, Ne.symm hc]

/-- C6: `normalizeUrl` maps `http://x.com/a/` to `http://x.com/a` against
base `http://x.com` and rejects `http://other.com`; in general every URL
whose resolved origin differs from the base origin yields `none`, and
every successful output contains neither a fragment marker `#` nor a
query marker `?`. -/
theorem normalizeUrl_spec :
    normalizeUrl "http://x.com/a/" "http://x.com" = some "http://x.com/a" ∧
    normalizeUrl "http://other.com" "http://x.com" = none ∧
    (∀ url o p bp, jsNewURL url o = some p → parseAbsolute o = some bp →
      p.origin ≠ bp.origin → normalizeUrl url o = none) ∧
    (∀ url o v, normalizeUrl url o = some v → '#' ∉ v.data ∧ '?' ∉ v.data) := by
  refine ⟨rfl, rfl, ?_, ?_⟩
  · intro url o p bp hj hbo hne
    unfold normalizeUrl
    simp only [hj, hbo]
    rw [if_pos hne]
  · intro url o v h
    obtain ⟨p, bp, path2, hj, hbo, horig, hv, hhd, hq, hdisj⟩ := normalizeUrl_some_form url o v h
    have hwf := jsNewURL_wf url o p hj
    subst hv
    have hsplit : (p.origin ++ path2).data =
        p.scheme.data ++ ("://".data ++ (p.host.data ++ path2.data)) := by
      simp [URLRec.origin, String.data_append]
    have hnot : ∀ c, stopChar c = true → queryHashChar c = true →
        c ∉ "http".data → c ∉ "https".data → c ∉ "://".data →
        c ∉ (p.origin ++ path2).data := by
      intro c hcs hcq hn1 hn2 hn3 hc
      rw [hsplit] at hc
      rcases List.mem_append.mp hc with h1 | h2
      · rcases hwf.scheme_eq with hs | hs
        · rw [hs] at h1; exact hn1 h1
        · rw [hs] at h1; exact hn2 h1
      · rcases List.mem_append.mp h2 with h3 | h4
        · exact hn3 h3
        · rcases List.mem_append.mp h4 with h5 | h6
          · have h7 := hwf.host_no_stop c h5
            rw [hcs] at h7
            exact absurd h7 (by decide)
          · have h7 := hq c h6
            rw [hcq] at h7
            exact absurd h7 (by decide)
    exact ⟨hnot '#' rfl rfl (by decide) (by decide) (by decide),
      hnot '?' rfl rfl (by decide) (by decide) (by decide)⟩

/-- Witness for C6 at concrete inputs. -/
theorem normalizeUrl_spec_witness :
    normalizeUrl "http://other.com" "http://x.com" = none ∧
    ('#' ∉ ("http://x.com/a" : String).data ∧ '?' ∉ ("http://x.com/a" : String).data) :=
  ⟨normalizeUrl_spec.2.2.1 "http://other.com" "http://x.com"
      ⟨"http", "other.com", "/", "", ""⟩ ⟨"http", "x.com", "/", "", ""⟩ rfl rfl (by decide),
    normalizeUrl_spec.2.2.2 "http://x.com/a/" "http://x.com" "http://x.com/a" rfl⟩

/-- C9 counterexample: `normalizeUrl` strips only one trailing slash, so a
path ending in a double slash produces an output that normalises further:
`normalizeUrl "http://x.com/a//"` yields `"http://x.com/a/"`, which is not
a fixed point. -/
theorem normalizeUrl_not_idempotent :
    normalizeUrl "http://x.com/a//" "http://x.com" = some "http://x.com/a/" ∧
    normalizeUrl "http://x.com/a/" "http://x.com" = some "http://x.com/a" ∧
    ("http://x.com/a/" : String) ≠ "http://x.com/a" :=
  ⟨rfl, rfl, by decide⟩

/-- C9 (amended): `normalizeUrl` is idempotent on every successful output
that does not end in a slash, and on the bare-root output (whose parsed
path is `/`). -/
theorem normalizeUrl_idempotent_amended :
    (∀ u o v, normalizeUrl u o = some v → jsEndsWith v "/" = false →
      normalizeUrl v o = some v) ∧
    (∀ u o v p, normalizeUrl u o = some v → jsNewURL u o = some p →
      p.pathname = "/" → normalizeUrl v o = some v) := by
  constructor
  · intro u o v h hend
    obtain ⟨p, bp, path2, hj, hbo, horig, hv, hhd, hq, hdisj⟩ := normalizeUrl_some_form u o v h
    have hwf := jsNewURL_wf u o p hj
    subst hv
    exact normalizeUrl_reparse_self o p bp path2 hwf hbo horig hhd hq (Or.inl hend)
  · intro u o v p h hj hroot
    obtain ⟨q, bp, path2, hj2, hbo, horig, hv, hhd, hq, hdisj⟩ := normalizeUrl_some_form u o v h
    obtain rfl : q = p := by
      rw [hj] at hj2
      exact (Option.some.inj hj2).symm
    have hwf := jsNewURL_wf u o q hj
    have hpath2 : path2 = "/" := by
      rcases hdisj with h1 | ⟨h1, h2⟩
      · rw [h1, hroot]
      · exact absurd hroot h2
    subst hv
    exact normalizeUrl_reparse_self o q bp path2 hwf hbo horig hhd hq (Or.inr hpath2)

/-- Witness for the amended C9 at concrete inputs. -/
theorem normalizeUrl_idempotent_amended_witness :
    normalizeUrl "http://x.com/a" "http://x.com" = some "http://x.com/a" ∧
    normalizeUrl "http://x.com/" "http://x.com" = some "http://x.com/" :=
  ⟨normalizeUrl_idempotent_amended.1 "http://x.com/a/" "http://x.com" "http://x.com/a" rfl rfl,
    normalizeUrl_idempotent_amended.2 "http://x.com" "http://x.com" "http://x.com/"
      ⟨"http", "x.com", "/", "", ""⟩ rfl rfl rfl⟩

/-- C7: `urlToSlug` maps `/services/plumbing.html` to `services--plumbing`
and the root to `index`; in general the slug of any URL contains no `/`
(every internal slash becomes `--`), and every URL parsing to the root
path maps to `index`. -/
theorem urlToSlug_spec :
    urlToSlug "http://x.com/services/plumbing.html" "http://x.com" = "services--plumbing" ∧
    urlToSlug "http://x.com/" "http://x.com" = "index" ∧
    (∀ url b, '/' ∉ (urlToSlug url b).data) ∧
    (∀ url b p, jsNewURL url b = some p → p.pathname = "/" → urlToSlug url b = "index") := by
  refine ⟨rfl, rfl, ?_, ?_⟩
  · intro url b
    unfold urlToSlug
    cases hj : jsNewURL url b with
    | none => decide
    | some parsed =>
      simp only
      unfold slugOfPath
      split
      · decide
      · intro hm
        exact slash_not_mem_replaceSlashes _ hm
  · intro url b p hj hroot
    unfold urlToSlug
    rw [hj]
    show slugOfPath p.pathname = "index"
    rw [hroot]
    rfl

/-- Witness for C7's universally quantified parts. -/
theorem urlToSlug_spec_witness :
    '/' ∉ (urlToSlug "http://x.com/services/plumbing.html" "http://x.com").data ∧
    urlToSlug "http://x.com/" "http://x.com" = "index" :=
  ⟨urlToSlug_spec.2.2.1 "http://x.com/services/plumbing.html" "http://x.com",
    urlToSlug_spec.2.2.2 "http://x.com/" "http://x.com" ⟨"http", "x.com", "/", "", ""⟩ rfl rfl⟩

/-- C10: `urlToSlug` is total; every input on which the URL constructor
throws yields the fixed slug `unknown`, so distinct unparseable inputs
collide on the same snapshot key (`http://` and `https://` both throw and
both map to `unknown`). -/
theorem urlToSlug_total_unknown :
    (∀ url b, jsNewURL url b = none → urlToSlug url b = "unknown") ∧
    urlToSlug "http://" "http://x.com" = "unknown" ∧
    urlToSlug "https://" "http://x.com" = "unknown" ∧
    ("http://" : String) ≠ "https://" := by
  refine ⟨?_, rfl, rfl, by decide⟩
  intro url b h
  unfold urlToSlug
  rw [h]

/-- Witness for C10 at a concrete input (invalid base). -/
theorem urlToSlug_total_unknown_witness :
    urlToSlug "a" "notaurl" = "unknown" :=
  urlToSlug_total_unknown.1 "a" "notaurl" rfl

/-! ### Extractor lemmas -/

theorem mem_jsSetDedup_go (l : List String) (seen : List String) (a : String) :
    a ∈ jsSetDedup.go l seen ↔ a ∈ l ∧ a ∉ seen := by
  induction l generalizing seen with
  | nil => simp [jsSetDedup.go]
  | cons x xs ih =>
    by_cases hx : x ∈ seen
    · rw [jsSetDedup.go, if_pos hx, ih]
      constructor
      · rintro ⟨h1, h2⟩
        exact ⟨List.mem_cons_of_mem _ h1, h2⟩
      · rintro ⟨h1, h2⟩
        rcases List.mem_cons.mp h1 with rfl | h3
        · exact absurd hx h2
        · exact ⟨h3, h2⟩
    · rw [jsSetDedup.go, if_neg hx]
      constructor
      · intro hmem
        rcases List.mem_cons.mp hmem with rfl | h3
        · exact ⟨List.mem_cons_self _ _, hx⟩
        · obtain ⟨hm, hns⟩ := (ih (x :: seen)).mp h3
          exact ⟨List.mem_cons_of_mem _ hm, fun hc => hns (List.mem_cons_of_mem _ hc)⟩
      · rintro ⟨h1, h2⟩
        rcases List.mem_cons.mp h1 with rfl | h3
        · exact List.mem_cons_self _ _
        · by_cases hax : a = x
          · subst hax
            exact List.mem_cons_self _ _
          · refine List.mem_cons_of_mem _ ((ih (x :: seen)).mpr ⟨h3, ?_⟩)
            intro hc
            rcases List.mem_cons.mp hc with rfl | hc2
            · exact hax rfl
            · exact h2 hc2

theorem mem_jsSetDedup (l : List String) (a : String) : a ∈ jsSetDedup l ↔ a ∈ l := by
  unfold jsSetDedup
  rw [mem_jsSetDedup_go]
  simp

theorem nodup_jsSetDedup_go (l : List String) : ∀ seen, (jsSetDedup.go l seen).Nodup := by
  induction l with
  | nil => intro seen; simp [jsSetDedup.go]
  | cons x xs ih =>
    intro seen
    by_cases hx : x ∈ seen
    · rw [jsSetDedup.go, if_pos hx]
      exact ih seen
    · rw [jsSetDedup.go, if_neg hx]
      refine List.nodup_cons.mpr ⟨?_, ih (x :: seen)⟩
      intro hc
      exact ((mem_jsSetDedup_go xs (x :: seen) x).mp hc).2 (List.mem_cons_self _ _)

theorem nodup_jsSetDedup (l : List String) : (jsSetDedup l).Nodup :=
  nodup_jsSetDedup_go l []

theorem mem_collectWindow_bounds (texts : List String) (t : String)
    (h : t ∈ collectWindow texts) : 20 < t.length ∧ t.length < 2000 := by
  unfold collectWindow at h
  obtain ⟨raw, hraw, heq⟩ := List.mem_filterMap.mp h
  by_cases hc : jsTrim raw ≠ "" ∧ 20 < (jsTrim raw).length ∧ (jsTrim raw).length < 2000
  · rw [if_pos hc] at heq
    obtain rfl : jsTrim raw = t := Option.some.inj heq
    exact ⟨hc.2.1, hc.2.2⟩
  · rw [if_neg hc] at heq
    exact absurd heq (by simp)

theorem mem_collectWindow_of (texts : List String) (t : String)
    (h1 : t ∈ texts.map jsTrim) (h2 : 20 < t.length) (h3 : t.length < 2000) :
    t ∈ collectWindow texts := by
  obtain ⟨raw, hraw, rfl⟩ := List.mem_map.mp h1
  have hne : jsTrim raw ≠ "" := by
    intro hc
    rw [hc] at h2
    exact absurd h2 (by decide)
  unfold collectWindow
  exact List.mem_filterMap.mpr ⟨raw, hraw, by rw [if_pos ⟨hne, h2, h3⟩]⟩

/-- C8: the testimonial list of an extracted page contains only texts
whose length lies strictly between 20 and 2000 characters, holds no
duplicates, and a text captured by both the testimonial/review class
selector and the blockquote selector appears exactly once. -/
theorem extractPageData_testimonials
    (parse : String → Option Json) (d : Doc) (url baseOrigin : String) (pd : PageData)
    (h : extractPageData parse d url baseOrigin = some pd) :
    (∀ t ∈ pd.testimonials, 20 < t.length ∧ t.length < 2000) ∧
    pd.testimonials.Nodup ∧
    (∀ t, t ∈ d.testimonialClassTexts.map jsTrim → t ∈ d.blockquoteTexts.map jsTrim →
      20 < t.length → t.length < 2000 → pd.testimonials.count t = 1) := by
  have hT : pd.testimonials = testimonialsOf d := by
    unfold extractPageData at h
    cases hil : extractInternalLinks d url baseOrigin with
    | none => rw [hil] at h; exact absurd h (by simp)
    | some links =>
      rw [hil] at h
      have h2 := Option.some.inj h
      rw [← h2]
  refine ⟨?_, ?_, ?_⟩
  · intro t ht
    rw [hT] at ht
    have hmem := (mem_jsSetDedup _ t).mp ht
    rcases List.mem_append.mp hmem with h1 | h1 <;> exact mem_collectWindow_bounds _ t h1
  · rw [hT]
    exact nodup_jsSetDedup _
  · intro t h1 h2 h3 h4
    have hmem : t ∈ testimonialsOf d :=
      (mem_jsSetDedup _ t).mpr
        (List.mem_append.mpr (Or.inl (mem_collectWindow_of _ t h1 h3 h4)))
    rw [hT]
    exact List.count_eq_one_of_mem (nodup_jsSetDedup _) hmem

/-- Witness for C8 at a concrete page carrying the same testimonial under
both selectors. -/
theorem extractPageData_testimonials_witness :
    (((extractPageData (fun _ => none) docTest "http://x.com/a" "http://x.com").map
      PageData.testimonials).getD []).count "a very pleasant service, recommended" = 1 := by
  have h := extractPageData_testimonials (fun _ => none) docTest "http://x.com/a"
    "http://x.com" _ rfl
  exact h.2.2 "a very pleasant service, recommended" (by decide) (by decide)
    (by decide) (by decide)

/-- C3: given a base origin the URL constructor accepts, `extractPageData`
always returns a `PageData` (it never throws), and a structured-data block
whose content fails JSON parsing is skipped individually: inserting it
anywhere among the page's `ld+json` scripts leaves the entire output
unchanged.  Totality is quantified over the parsed document and the JSON
parser, covering every HTML string (`cheerio.load` is total). -/
theorem extractPageData_total_and_skips_bad_json
    (parse : String → Option Json) (d : Doc) (url baseOrigin : String)
    (hbo : (parseAbsolute baseOrigin).isSome = true) :
    (extractPageData parse d url baseOrigin).isSome = true ∧
    (∀ pre post bad, parse bad = none →
      extractPageData parse { d with ldJsonScripts := pre ++ some bad :: post } url baseOrigin =
        extractPageData parse { d with ldJsonScripts := pre ++ post } url baseOrigin) := by
  obtain ⟨bp, hbp⟩ := Option.isSome_iff_exists.mp hbo
  have h1 : ∀ d' : Doc, (extractInternalLinks d' url baseOrigin).isSome = true := by
    intro d'
    unfold extractInternalLinks
    rw [hbp]
    rfl
  constructor
  · unfold extractPageData
    cases hil : extractInternalLinks d url baseOrigin with
    | none =>
      have := h1 d
      rw [hil] at this
      exact absurd this (by simp)
    | some links => rfl
  · intro pre post bad hbad
    have hil_eq : extractInternalLinks { d with ldJsonScripts := pre ++ some bad :: post }
        url baseOrigin =
        extractInternalLinks { d with ldJsonScripts := pre ++ post } url baseOrigin := rfl
    unfold extractPageData
    rw [hil_eq]
    cases hil : extractInternalLinks { d with ldJsonScripts := pre ++ post } url baseOrigin with
    | none => rfl
    | some links =>
      have hschema : ((pre ++ some bad :: post).filterMap fun o => parse (o.getD "")) =
          ((pre ++ post).filterMap fun o => parse (o.getD "")) := by
        simp [List.filterMap_append, List.filterMap_cons, hbad]
      have htest : testimonialsOf { d with ldJsonScripts := pre ++ some bad :: post } =
          testimonialsOf { d with ldJsonScripts := pre ++ post } := rfl
      simp only [hschema, htest]

/-- Witness for C3 at a concrete page and parser. -/
theorem extractPageData_total_and_skips_bad_json_witness :
    (extractPageData (fun _ => none) docEmpty "http://x.com/a" "http://x.com").isSome = true ∧
    extractPageData (fun _ => none) { docEmpty with ldJsonScripts := [some "oops"] }
        "http://x.com/a" "http://x.com" =
      extractPageData (fun _ => none) docEmpty "http://x.com/a" "http://x.com" := by
  have h := extractPageData_total_and_skips_bad_json (fun _ => none) docEmpty
    "http://x.com/a" "http://x.com" rfl
  exact ⟨h.1, h.2 [] [] "oops" rfl⟩

end AstroClient
